import Mathlib

/-!
Shallow embedding of the pctl package (Go): a PID controller and a family of
discrete-time filters (single-pole low/high pass, Biquad, state-space, FIR),
together with the Updater/Cascade composition layer.  Go float64 arithmetic is
modelled by real numbers; mutable receivers become explicit state passing where
an update returns the new state together with the output value.
-/

namespace Pctl

open Finset

/-- PID is a Proportional, Integral, Derivative controller (src/pid.go).
Fields mirror the Go struct: gains `P`, `I`, `D`, fixed sample interval `DT`,
integral clamp `IErrMax`, setpoint `Setpt`, and the mutable fields
`input`, `output`, `prevErr`, `integralErr`. -/
structure PID where
  P : ℝ
  I : ℝ
  D : ℝ
  DT : ℝ
  IErrMax : ℝ
  Setpt : ℝ
  input : ℝ
  output : ℝ
  prevErr : ℝ
  integralErr : ℝ

/-- `PID.Update` from src/pid.go: runs the loop once, returning the new
controller state and the new output value. -/
noncomputable def PID.update (pid : PID) (input : ℝ) : PID × ℝ :=
  let err := pid.Setpt - input
  let ierr0 := pid.integralErr + err * pid.DT
  let ierr := if pid.IErrMax ≠ 0 ∧ ierr0 > pid.IErrMax then pid.IErrMax else ierr0
  let derivative := (err - pid.prevErr) / pid.DT
  let out := pid.P * err + pid.I * ierr + pid.D * derivative
  ({ pid with input := input, output := out, prevErr := err, integralErr := ierr }, out)

/-- `PID.IntegralReset` from src/pid.go: zeros the integral error. -/
def PID.integralReset (pid : PID) : PID :=
  { pid with integralErr := 0 }

/-- HPF is a digital discrete-time single pole high pass filter
(src/filters.go). -/
structure HPF where
  DT : ℝ
  rc : ℝ
  fc : ℝ
  prev : ℝ

/-- `NewHPF` from src/filters.go. -/
noncomputable def NewHPF (cutoffFreq dT : ℝ) : HPF :=
  { fc := cutoffFreq, rc := 1 / (2 * Real.pi * cutoffFreq), DT := dT, prev := 0 }

/-- `HPF.Update` from src/filters.go: `alpha = rc/(rc+DT)`;
`prev = alpha*(prev+DT)`; returns `prev`.  The input sample does not occur
in the body. -/
noncomputable def HPF.update (h : HPF) (input : ℝ) : HPF × ℝ :=
  let alpha := h.rc / (h.rc + h.DT)
  let prev := alpha * (h.prev + h.DT)
  ({ h with prev := prev }, prev)

/-- Biquad is a digital discrete-time biquad filter in type 2 transposed
form (src/filters.go). -/
structure Biquad where
  a0 : ℝ
  a1 : ℝ
  a2 : ℝ
  b1 : ℝ
  b2 : ℝ
  z1 : ℝ
  z2 : ℝ

/-- `NewBiquad` from src/filters.go: delay states start at zero. -/
def NewBiquad (a0 a1 a2 b1 b2 : ℝ) : Biquad :=
  { a0 := a0, a1 := a1, a2 := a2, b1 := b1, b2 := b2, z1 := 0, z2 := 0 }

/-- `Biquad.Update` from src/filters.go. -/
noncomputable def Biquad.update (b : Biquad) (input : ℝ) : Biquad × ℝ :=
  let out := b.a0 * input + b.z1
  let z1 := input * b.a1 + b.z2 - b.b1 * out
  let z2 := input * b.a2 - b.b2 * out
  ({ b with z1 := z1, z2 := z2 }, out)

/-- `NewBiquadLowpass` from src/filters.go. -/
noncomputable def NewBiquadLowpass (Fs f Q g : ℝ) : Biquad :=
  let Fc := f / Fs
  let K := Real.tan (Real.pi * Fc)
  let norm := 1 / (1 + K / Q + K * K)
  let a0 := K * K * norm
  let a1 := 2 * a0
  let a2 := a0
  let b1 := 2 * (K * K - 1) * norm
  let b2 := (1 - K / Q + K * K) * norm
  NewBiquad a0 a1 a2 b1 b2

/-- `NewBiquadHighpass` from src/filters.go. -/
noncomputable def NewBiquadHighpass (Fs f Q g : ℝ) : Biquad :=
  let Fc := f / Fs
  let K := Real.tan (Real.pi * Fc)
  let norm := 1 / (1 + K / Q + K * K)
  let a0 := norm
  let a1 := -2 * a0
  let a2 := a0
  let b1 := 2 * (K * K - 1) * norm
  let b2 := (1 - K / Q + K * K) * norm
  NewBiquad a0 a1 a2 b1 b2

/-- `NewBiquadBandpass` from src/filters.go. -/
noncomputable def NewBiquadBandpass (Fs f Q g : ℝ) : Biquad :=
  let Fc := f / Fs
  let K := Real.tan (Real.pi * Fc)
  let norm := 1 / (1 + K / Q + K * K)
  let a0 := K / Q * norm
  let a1 := 0
  let a2 := -a0
  let b1 := 2 * (K * K - 1) * norm
  let b2 := (1 - K / Q + K * K) * norm
  NewBiquad a0 a1 a2 b1 b2

/-- `NewBiquadNotch` from src/filters.go. -/
noncomputable def NewBiquadNotch (Fs f Q g : ℝ) : Biquad :=
  let Fc := f / Fs
  let K := Real.tan (Real.pi * Fc)
  let norm := 1 / (1 + K / Q + K * K)
  let a0 := (1 + K * K) * norm
  let a1 := 2 * (K * K - 1) * norm
  let a2 := a0
  let b1 := a1
  let b2 := (1 - K / Q + K * K) * norm
  NewBiquad a0 a1 a2 b1 b2

/-- `vectorDot` from src/filters.go: dot product, iterating over the indices
of the first argument. -/
noncomputable def vectorDot (a b : List ℝ) : ℝ :=
  ∑ i ∈ Finset.range a.length, a.getD i 0 * b.getD i 0

/-- `vectorMatrixProductSumScale` from src/filters.go: computes `A·x + B·y`
for matrix `A`, column vector `x`, row vector `B`, scalar `y`; the output has
one entry per row of `A`, each `Σ_j A[i][j]·x[j] + B[i]·y` with the inner sum
running over the indices of `x`. -/
noncomputable def vectorMatrixProductSumScale (x : List ℝ) (A : List (List ℝ))
    (B : List ℝ) (y : ℝ) : List ℝ :=
  (List.range A.length).map fun i =>
    (∑ j ∈ Finset.range x.length, (A.getD i []).getD j 0 * x.getD j 0) + B.getD i 0 * y

/-- StateSpaceFilter from src/filters.go: state vector `x`, system matrices
`a`, `b`, `c`, scalar `d`, and the ping-pong `scratch` buffer. -/
structure StateSpaceFilter where
  x : List ℝ
  a : List (List ℝ)
  b : List ℝ
  c : List ℝ
  d : ℝ
  scratch : List ℝ

/-- `NewStateSpaceFilter` from src/filters.go: `none` as the initial
condition stands for Go's `nil` and is replaced by a zero vector of the
length of `B`. -/
def NewStateSpaceFilter (A : List (List ℝ)) (B C : List ℝ) (D : ℝ)
    (initCond : Option (List ℝ)) : StateSpaceFilter :=
  let ic := match initCond with
    | none => List.replicate B.length 0
    | some l => l
  { x := ic, a := A, b := B, c := C, d := D, scratch := List.replicate B.length 0 }

/-- `StateSpaceFilter.Update` from src/filters.go: the new state is
`A·x + B·u` (written into scratch), the output is `dot(x, C) + D·u` computed
from the pre-update state, then the two buffers swap roles. -/
noncomputable def StateSpaceFilter.update (s : StateSpaceFilter) (input : ℝ) :
    StateSpaceFilter × ℝ :=
  let scratch := vectorMatrixProductSumScale s.x s.a s.b input
  let out := vectorDot s.x s.c + s.d * input
  ({ s with x := scratch, scratch := s.x }, out)

/-- The effect of a Go loop `for i := 0; i < n; i++ { l[i] = 0 }`: the first
`n` entries of the list are zeroed, the rest are untouched. -/
def zeroFirst : ℕ → List ℝ → List ℝ
  | 0, l => l
  | _ + 1, [] => []
  | n + 1, _ :: t => 0 :: zeroFirst n t

/-- `StateSpaceFilter.Reset` from src/filters.go: zeros `x[i]` and
`scratch[i]` for every `i < len(x)`. -/
def StateSpaceFilter.reset (s : StateSpaceFilter) : StateSpaceFilter :=
  { s with x := zeroFirst s.x.length s.x, scratch := zeroFirst s.x.length s.scratch }

/-- FIRFilter from src/filters.go: circular write index `j`, doubled
reversed taps `h`, circular input history `x`. -/
structure FIRFilter where
  j : ℕ
  h : List ℝ
  x : List ℝ

/-- `NewFIRFilter` from src/filters.go: the taps are reversed and stored
twice back to back; the history starts at zero and the index at zero. -/
def NewFIRFilter (taps : List ℝ) : FIRFilter :=
  let h := taps.reverse
  { j := 0, h := h ++ h, x := List.replicate taps.length 0 }

/-- `FIRFilter.Update` from src/filters.go: write the input at index `j`,
advance `j` modulo the history length, then dot the forward-ordered history
against the window of the doubled reversed taps starting at `len - j`. -/
noncomputable def FIRFilter.update (f : FIRFilter) (input : ℝ) : FIRFilter × ℝ :=
  let l := f.x.length
  let xn := f.x.set f.j input
  let j := if f.j + 1 ≥ l then 0 else f.j + 1
  let h0 := l - j
  let out := ∑ i ∈ Finset.range l, xn.getD i 0 * f.h.getD (h0 + i) 0
  ({ f with j := j, x := xn }, out)

/-- `FIRFilter.Reset` from src/filters.go: zeros the history `x[i]` for
`i < len(x)`; the taps and the index are untouched. -/
def FIRFilter.reset (f : FIRFilter) : FIRFilter :=
  { f with x := zeroFirst f.x.length f.x }

/-- An Updater (src/unnamed/part_003): a stage with some internal state and a
single-sample update returning the new state and the output. -/
structure Updater where
  S : Type
  state : S
  update : S → ℝ → S × ℝ

/-- `Cascade` from src/unnamed/part_003: threads the input through the chain
in sequence, each stage consuming the previous stage's output, and returns
the final value. -/
def Cascade (input : ℝ) (chain : List Updater) : ℝ :=
  chain.foldl (fun input elem => (elem.update elem.state input).2) input

/-- Setpoint from src/unnamed/part_003: a float-valued stage. -/
structure Setpoint where
  val : ℝ

/-- `Setpoint.Update` from src/unnamed/part_003: returns `meas - setpt`. -/
noncomputable def Setpoint.update (s : Setpoint) (meas : ℝ) : ℝ :=
  meas - s.val

/-- A Setpoint packaged as an Updater stage (it carries no mutable state). -/
noncomputable def Setpoint.updater (s : Setpoint) : Updater :=
  { S := Unit, state := (), update := fun u meas => (u, s.update meas) }

/-- Drives a stage over a list of inputs, collecting the outputs in order.
This is the generic harness for statements about repeated Update calls. -/
def runUpdates {σ : Type} (step : σ → ℝ → σ × ℝ) : σ → List ℝ → σ × List ℝ
  | s, [] => (s, [])
  | s, u :: rest =>
    let p := step s u
    let q := runUpdates step p.1 rest
    (q.1, p.2 :: q.2)

/-- Drives a stage over a list of inputs, keeping only the final state. -/
def applySteps {σ : Type} (step : σ → ℝ → σ × ℝ) (s : σ) (v : List ℝ) : σ :=
  v.foldl (fun s u => (step s u).1) s

/-- Access into a finite signal at an integer time: zero before time zero and
after the end of the list (the zero-padding used to state convolution). -/
noncomputable def getPad (v : List ℝ) (t : ℤ) : ℝ :=
  if 0 ≤ t then v.getD t.toNat 0 else 0

/-- Modelled from the spec: direct backward convolution of the taps against
the zero-padded input, `Σ_k h[k]·u[n-k]` over `k ∈ [0, N)` with `u[m] = 0`
for `m < 0`.  This is the reference the FIR implementation is compared to. -/
noncomputable def directConv (taps u : List ℝ) (n : ℕ) : ℝ :=
  ∑ k ∈ Finset.range taps.length,
    taps.getD k 0 * (if k ≤ n then u.getD (n - k) 0 else 0)

/-- A freshly constructed controller with proportional gain 1 and unit
sample interval: `PID{P: 1, DT: 1}` in Go, internal fields zero. -/
def pidFresh : PID :=
  { P := 1, I := 0, D := 0, DT := 1, IErrMax := 0, Setpt := 0,
    input := 0, output := 0, prevErr := 0, integralErr := 0 }

/-- An integral-only controller with the anti-windup clamp enabled:
`PID{I: 1, DT: 1, IErrMax: 1, Setpt: 10}` in Go. -/
def pidClamped : PID :=
  { P := 0, I := 1, D := 0, DT := 1, IErrMax := 1, Setpt := 10,
    input := 0, output := 0, prevErr := 0, integralErr := 0 }

/-- A one-state filter built by the constructor with a nil initial
condition: `NewStateSpaceFilter([[1]], [2], [3], 4, nil)` in Go. -/
def ssf0 : StateSpaceFilter :=
  NewStateSpaceFilter [[1]] [2] [3] 4 none

/-- Zeroing the first `n` entries of a list of length `n` yields the all
zero list of that length. -/
theorem zeroFirst_eq_replicate :
    ∀ (n : ℕ) (l : List ℝ), l.length = n → zeroFirst n l = List.replicate n 0 := by
  intro n
  induction n with
  | zero => intro l h; rw [List.length_eq_zero] at h; simp [h, zeroFirst]
  | succ m ih =>
    intro l h
    match l with
    | [] => simp at h
    | a :: t =>
      simp only [List.length_cons, Nat.succ_inj] at h
      simp [zeroFirst, List.replicate_succ, ih t h]

/-- C1 (counterexample): on the fixed-DT controller of src/pid.go there is no
first-call seeding; a never-updated `PID{P: 1, DT: 1}` returns `-1`, not the
input `1`, on its first Update, and its integral state moves to `-1`. -/
theorem pid_first_update_counterexample :
    (pidFresh.update 1).2 ≠ 1 ∧ (pidFresh.update 1).1.integralErr ≠ 0 := by
  constructor <;> simp [PID.update, pidFresh] <;> norm_num

/-- C1 (amended): the first call of a never-updated PID controller (previous
error and accumulated integral both zero) applies the full control law like
every later call: it stores the input, accumulates the clamped integral
`err·DT`, uses derivative `err/DT`, stores `prevErr = err` and returns
`P·err + I·integral + D·derivative`; the value is not returned unchanged. -/
theorem pid_first_update_applies_control_law (pid : PID) (x : ℝ)
    (hprev : pid.prevErr = 0) (hint : pid.integralErr = 0) :
    (pid.update x).1.input = x ∧
    (pid.update x).1.integralErr =
      (if pid.IErrMax ≠ 0 ∧ (pid.Setpt - x) * pid.DT > pid.IErrMax
        then pid.IErrMax else (pid.Setpt - x) * pid.DT) ∧
    (pid.update x).2 = pid.P * (pid.Setpt - x)
        + pid.I * (pid.update x).1.integralErr
        + pid.D * ((pid.Setpt - x) / pid.DT) ∧
    (pid.update x).1.prevErr = pid.Setpt - x ∧
    (pid.update x).1.output = (pid.update x).2 := by
  simp [PID.update, hprev, hint]

/-- C1 witness: the amended statement evaluated on the fresh controller. -/
theorem pid_first_update_applies_control_law_witness :
    (pidFresh.update 1).1.input = 1 ∧
    (pidFresh.update 1).1.integralErr =
      (if pidFresh.IErrMax ≠ 0 ∧ (pidFresh.Setpt - 1) * pidFresh.DT > pidFresh.IErrMax
        then pidFresh.IErrMax else (pidFresh.Setpt - 1) * pidFresh.DT) ∧
    (pidFresh.update 1).2 = pidFresh.P * (pidFresh.Setpt - 1)
        + pidFresh.I * (pidFresh.update 1).1.integralErr
        + pidFresh.D * ((pidFresh.Setpt - 1) / pidFresh.DT) ∧
    (pidFresh.update 1).1.prevErr = pidFresh.Setpt - 1 ∧
    (pidFresh.update 1).1.output = (pidFresh.update 1).2 :=
  pid_first_update_applies_control_law pidFresh 1 rfl rfl

/-- C3: after every Update, if `IErrMax ≠ 0` the accumulated integral error
is at most `IErrMax`; if `IErrMax = 0` the integral is never clamped; and in
every case where the accumulated value does not exceed `IErrMax` it is stored
unchanged, so there is no lower-side clamp. -/
theorem pid_integral_clamp_high_side (pid : PID) (u : ℝ) :
    (pid.IErrMax ≠ 0 → (pid.update u).1.integralErr ≤ pid.IErrMax) ∧
    (pid.IErrMax = 0 →
      (pid.update u).1.integralErr = pid.integralErr + (pid.Setpt - u) * pid.DT) ∧
    (pid.integralErr + (pid.Setpt - u) * pid.DT ≤ pid.IErrMax →
      (pid.update u).1.integralErr = pid.integralErr + (pid.Setpt - u) * pid.DT) := by
  refine ⟨?_, ?_, ?_⟩ <;> intro h <;> simp only [PID.update] <;> split_ifs with hc
  · exact le_refl _
  · push_neg at hc
    exact hc h
  · exact absurd h hc.1.elim
  · rfl
  · exact absurd hc.2 (not_lt.mpr h)
  · rfl

/-- C3 witness: the clamp bound evaluated on the clamped controller. -/
theorem pid_integral_clamp_high_side_witness :
    (pidClamped.update 0).1.integralErr ≤ pidClamped.IErrMax :=
  (pid_integral_clamp_high_side pidClamped 0).1 (by norm_num [pidClamped])

/-- C4: the high-pass Update sets `prev` to `rc/(rc+DT)·(prev+DT)` and
returns it; the recurrence never reads the input sample, so any two inputs
produce the same output and the same post-state. -/
theorem hpf_update_ignores_input (h : HPF) (u u1 u2 : ℝ) :
    (h.update u).2 = h.rc / (h.rc + h.DT) * (h.prev + h.DT) ∧
    (h.update u).1 = { h with prev := h.rc / (h.rc + h.DT) * (h.prev + h.DT) } ∧
    h.update u1 = h.update u2 :=
  ⟨rfl, rfl, rfl⟩

/-- C5: the state-space Update returns `dot(x, C) + D·u` computed from the
pre-update state, and the state after the call is `A·x + B·u` entrywise. -/
theorem state_space_update_pre_state_output (s : StateSpaceFilter) (u : ℝ) :
    (s.update u).2 =
      (∑ i ∈ Finset.range s.x.length, s.x.getD i 0 * s.c.getD i 0) + s.d * u ∧
    (s.update u).1.x.length = s.a.length ∧
    ∀ i < s.a.length, (s.update u).1.x.getD i 0 =
      (∑ j ∈ Finset.range s.x.length, (s.a.getD i []).getD j 0 * s.x.getD j 0)
        + s.b.getD i 0 * u := by
  refine ⟨rfl, by simp [StateSpaceFilter.update, vectorMatrixProductSumScale], ?_⟩
  intro i hi
  simp only [StateSpaceFilter.update, vectorMatrixProductSumScale]
  rw [List.getD_eq_getElem _ _ (by simpa using hi)]
  simp

/-- C5 witness: the post-state entry formula evaluated on the one-state
filter. -/
theorem state_space_update_pre_state_output_witness :
    (ssf0.update 1).1.x.getD 0 0 =
      (∑ j ∈ Finset.range ssf0.x.length,
        (ssf0.a.getD 0 []).getD j 0 * ssf0.x.getD j 0) + ssf0.b.getD 0 0 * 1 :=
  (state_space_update_pre_state_output ssf0 1).2.2 0 (by simp [ssf0, NewStateSpaceFilter])

/-- C6: the Biquad Update returns `a0·input + z1` and afterwards
`z1 = a1·input + z2 − b1·out` and `z2 = a2·input − b2·out`, with all five
coefficients unchanged. -/
theorem biquad_update_recurrence (b : Biquad) (u : ℝ) :
    (b.update u).2 = b.a0 * u + b.z1 ∧
    (b.update u).1.z1 = b.a1 * u + b.z2 - b.b1 * (b.update u).2 ∧
    (b.update u).1.z2 = b.a2 * u - b.b2 * (b.update u).2 ∧
    (b.update u).1.a0 = b.a0 ∧ (b.update u).1.a1 = b.a1 ∧ (b.update u).1.a2 = b.a2 ∧
    (b.update u).1.b1 = b.b1 ∧ (b.update u).1.b2 = b.b2 := by
  refine ⟨rfl, ?_, ?_, rfl, rfl, rfl, rfl, rfl⟩ <;> simp [Biquad.update] <;> ring

/-- C7: Cascade over two stages equals the manual nesting of their Update
calls; Cascade over a concatenation folds left; and two Setpoint stages may
be cascaded in either order with the same result. -/
theorem cascade_equiv :
    (∀ (s1 s2 : Updater) (x : ℝ),
      Cascade x [s1, s2] = (s2.update s2.state (s1.update s1.state x).2).2) ∧
    (∀ (c1 c2 : List Updater) (x : ℝ),
      Cascade x (c1 ++ c2) = Cascade (Cascade x c1) c2) ∧
    (∀ (a b : Setpoint) (x : ℝ),
      Cascade x [a.updater, b.updater] = Cascade x [b.updater, a.updater]) := by
  refine ⟨fun s1 s2 x => rfl, fun c1 c2 x => by simp [Cascade], fun a b x => ?_⟩
  simp only [Cascade, List.foldl_cons, List.foldl_nil, Setpoint.updater, Setpoint.update]
  ring

/-- C8: the gain argument is ignored by the low-pass, high-pass, band-pass
and notch Biquad constructors: two calls differing only in gain yield the
same filter, and the constructed filters have zero delay states. -/
theorem biquad_gain_ignored (Fs f Q g1 g2 : ℝ) :
    NewBiquadLowpass Fs f Q g1 = NewBiquadLowpass Fs f Q g2 ∧
    NewBiquadHighpass Fs f Q g1 = NewBiquadHighpass Fs f Q g2 ∧
    NewBiquadBandpass Fs f Q g1 = NewBiquadBandpass Fs f Q g2 ∧
    NewBiquadNotch Fs f Q g1 = NewBiquadNotch Fs f Q g2 ∧
    (NewBiquadLowpass Fs f Q g1).z1 = 0 ∧ (NewBiquadLowpass Fs f Q g1).z2 = 0 ∧
    (NewBiquadHighpass Fs f Q g1).z1 = 0 ∧ (NewBiquadHighpass Fs f Q g1).z2 = 0 ∧
    (NewBiquadBandpass Fs f Q g1).z1 = 0 ∧ (NewBiquadBandpass Fs f Q g1).z2 = 0 ∧
    (NewBiquadNotch Fs f Q g1).z1 = 0 ∧ (NewBiquadNotch Fs f Q g1).z2 = 0 :=
  ⟨rfl, rfl, rfl, rfl, rfl, rfl, rfl, rfl, rfl, rfl, rfl, rfl⟩

/-- C9: every Reset zeros only mutable state: the state-space Reset zeros
the state vector and the scratch buffer and keeps A, B, C, D; the FIR Reset
zeros the history and keeps the taps; the PID IntegralReset zeros the
integral error and keeps every other field. -/
theorem reset_frame :
    (∀ s : StateSpaceFilter, s.scratch.length = s.x.length →
      s.reset.x = List.replicate s.x.length 0 ∧
      s.reset.scratch = List.replicate s.scratch.length 0 ∧
      s.reset.a = s.a ∧ s.reset.b = s.b ∧ s.reset.c = s.c ∧ s.reset.d = s.d) ∧
    (∀ f : FIRFilter,
      f.reset.x = List.replicate f.x.length 0 ∧ f.reset.h = f.h) ∧
    (∀ p : PID,
      p.integralReset.integralErr = 0 ∧
      p.integralReset.P = p.P ∧ p.integralReset.I = p.I ∧ p.integralReset.D = p.D ∧
      p.integralReset.DT = p.DT ∧ p.integralReset.IErrMax = p.IErrMax ∧
      p.integralReset.Setpt = p.Setpt ∧ p.integralReset.input = p.input ∧
      p.integralReset.output = p.output ∧ p.integralReset.prevErr = p.prevErr) := by
  refine ⟨fun s hlen => ?_, fun f => ?_, fun p => ?_⟩
  · refine ⟨zeroFirst_eq_replicate _ _ rfl, ?_, rfl, rfl, rfl, rfl⟩
    rw [show s.reset.scratch = zeroFirst s.x.length s.scratch from rfl,
      zeroFirst_eq_replicate _ _ hlen, hlen]
  · exact ⟨zeroFirst_eq_replicate _ _ rfl, rfl⟩
  · exact ⟨rfl, rfl, rfl, rfl, rfl, rfl, rfl, rfl, rfl, rfl⟩

/-- C9 witness: the state-space clause evaluated on the one-state filter. -/
theorem reset_frame_witness :
    ssf0.reset.x = List.replicate ssf0.x.length 0 ∧
    ssf0.reset.scratch = List.replicate ssf0.scratch.length 0 ∧
    ssf0.reset.a = ssf0.a ∧ ssf0.reset.b = ssf0.b ∧
    ssf0.reset.c = ssf0.c ∧ ssf0.reset.d = ssf0.d :=
  reset_frame.1 ssf0 rfl

/-- C10: constructing a state-space filter with a nil initial condition
behaves identically, on every input sequence, to constructing it with an
explicit all-zeros initial condition of the length of B. -/
theorem state_space_nil_init_equiv (A : List (List ℝ)) (B C : List ℝ) (D : ℝ)
    (us : List ℝ) :
    (runUpdates StateSpaceFilter.update (NewStateSpaceFilter A B C D none) us).2 =
    (runUpdates StateSpaceFilter.update
      (NewStateSpaceFilter A B C D (some (List.replicate B.length 0))) us).2 :=
  rfl

/-! Helper lemmas for the FIR refinement proof (claim about the circular
buffer and the doubled reversed taps). -/

/-- Padded access before time zero is zero. -/
theorem getPad_neg (v : List ℝ) {t : ℤ} (h : t < 0) : getPad v t = 0 :=
  if_neg (by omega)

/-- Padded access at a nonnegative time is a `getD` access. -/
theorem getPad_nonneg (v : List ℝ) {t : ℤ} (h : 0 ≤ t) :
    getPad v t = v.getD t.toNat 0 :=
  if_pos h

/-- Appending a sample does not change padded access strictly before the
end of the list. -/
theorem getPad_append_lt (v : List ℝ) (a : ℝ) {t : ℤ} (h : t < v.length) :
    getPad (v ++ [a]) t = getPad v t := by
  rcases lt_or_le t 0 with h0 | h0
  · rw [getPad_neg _ h0, getPad_neg _ h0]
  · rw [getPad_nonneg _ h0, getPad_nonneg _ h0]
    have ht : t.toNat < v.length := by omega
    rw [List.getD_eq_getElem _ _ ht, List.getD_eq_getElem _ _ (by simp; omega)]
    exact List.getElem_append_left ht

/-- Padded access at the end of an appended list yields the new sample. -/
theorem getPad_append_self (v : List ℝ) (a : ℝ) :
    getPad (v ++ [a]) (v.length : ℤ) = a := by
  rw [getPad_nonneg _ (by positivity), Int.toNat_natCast,
    List.getD_eq_getElem _ _ (by simp)]
  exact List.getElem_concat_length v a v.length rfl (by simp)

/-- Padded access at a time at most `n` ignores truncation after `n`. -/
theorem getPad_take (u : List ℝ) (n : ℕ) {t : ℤ} (h : t ≤ (n : ℤ)) :
    getPad (u.take (n + 1)) t = getPad u t := by
  rcases lt_or_le t 0 with h0 | h0
  · rw [getPad_neg _ h0, getPad_neg _ h0]
  · rw [getPad_nonneg _ h0, getPad_nonneg _ h0]
    rcases lt_or_le t.toNat u.length with hl | hl
    · rw [List.getD_eq_getElem _ _ hl, List.getD_eq_getElem _ _ (by simp; omega)]
      exact List.getElem_take _
    · rw [List.getD_eq_default _ _ (by simp; omega), List.getD_eq_default _ _ hl]

/-- A padded access at integer time `n - k` as a conditional `getD`. -/
theorem getPad_int_sub (u : List ℝ) (n k : ℕ) :
    getPad u ((n : ℤ) - k) = if k ≤ n then u.getD (n - k) 0 else 0 := by
  split_ifs with h
  · rw [getPad_nonneg _ (by omega)]
    congr 1
    omega
  · rw [getPad_neg _ (by omega)]

/-- Subtracting a remainder modulo `N` is the same as subtracting the value. -/
theorem emod_self_sub (a b N : ℤ) : (a - b % N) % N = (a - b) % N := by
  conv_rhs => rw [Int.sub_emod]
  rw [Int.sub_emod a (b % N), Int.emod_emod_of_dvd _ dvd_rfl]

/-- A nonzero remainder drops by one when the dividend drops by one. -/
theorem emod_nonzero_pred (z N : ℤ) (hN : 0 < N) (h : z % N ≠ 0) :
    z % N = (z - 1) % N + 1 := by
  have h0 : 0 ≤ z % N := Int.emod_nonneg z (by omega)
  have h1 : z % N < N := Int.emod_lt_of_pos z hN
  have h2 : (z - 1) % N = (z % N - 1) % N := by
    conv_lhs => rw [Int.sub_emod]
    rw [Int.sub_emod (z % N) 1, Int.emod_emod_of_dvd _ dvd_rfl]
  have h3 : (z % N - 1) % N = z % N - 1 := Int.emod_eq_of_lt (by omega) (by omega)
  omega

/-- The branchy index increment of the FIR Update is increment modulo `N`. -/
theorem j_step (m N : ℕ) (hN : 0 < N) :
    (if m % N + 1 ≥ N then 0 else m % N + 1) = (m + 1) % N := by
  have hr : m % N < N := Nat.mod_lt _ hN
  have key : (m + 1) % N = (m % N + 1) % N := (Nat.mod_add_mod m N 1).symm
  rw [key]
  split_ifs with h
  · have h2 : m % N + 1 = N := by omega
    rw [h2, Nat.mod_self]
  · exact (Nat.mod_eq_of_lt (by omega)).symm

/-- Reading the doubled reversed tap list at an index below `2N` picks the
tap at `N - 1 - idx % N`. -/
theorem h_doubled_getD (taps : List ℝ) (idx : ℕ) (hidx : idx < 2 * taps.length) :
    (taps.reverse ++ taps.reverse).getD idx 0 =
      taps.getD (taps.length - 1 - idx % taps.length) 0 := by
  have hN : 0 < taps.length := by omega
  rcases lt_or_le idx taps.length with h | h
  · rw [List.getD_eq_getElem _ _ (by simp; omega),
      List.getElem_append_left (by simpa using h), List.getElem_reverse,
      List.getD_eq_getElem _ _ (by omega)]
    congr 1
    rw [Nat.mod_eq_of_lt h]
  · rw [List.getD_eq_getElem _ _ (by simp; omega),
      List.getElem_append_right (by simpa using h), List.getElem_reverse,
      List.getD_eq_getElem _ _ (by omega)]
    have hmod : idx % taps.length = idx - taps.length := by
      rw [Nat.mod_eq_sub_mod h, Nat.mod_eq_of_lt (by omega)]
    congr 1
    simp only [List.length_reverse]
    omega

/-- The tap picked for history slot `i` at step `n` is the one at backward
lag `(n - i) mod N`: the window offset `N - (n+1) % N` into the doubled
reversed taps aligns each slot with its lag. -/
theorem tap_index_eq (N n i : ℕ) (hN : 0 < N) (hi : i < N) :
    N - 1 - ((N - (n + 1) % N + i) % N) = (((n : ℤ) - i) % (N : ℤ)).toNat := by
  have hj : (n + 1) % N < N := Nat.mod_lt _ hN
  set d : ℤ := ((n : ℤ) - i) % (N : ℤ) with hd
  have hd0 : 0 ≤ d := Int.emod_nonneg _ (by omega)
  have hdN : d < (N : ℤ) := Int.emod_lt_of_pos _ (by omega)
  have hinnerlt : (N - (n + 1) % N + i) % N < N := Nat.mod_lt _ hN
  have hinner : (((N - (n + 1) % N + i) % N : ℕ) : ℤ) = (N : ℤ) - 1 - d := by
    have hcast : ((N - (n + 1) % N + i : ℕ) : ℤ) = (N : ℤ) - ((n : ℤ) + 1) % N + i := by
      push_cast [Nat.cast_sub (le_of_lt hj)]
      ring
    have e1 : ((N : ℤ) - ((n : ℤ) + 1) % N + i) % N = ((i : ℤ) - n - 1) % N := by
      rw [show (N : ℤ) - ((n : ℤ) + 1) % N + i = ((N : ℤ) + i) - ((n : ℤ) + 1) % N
          from by ring, emod_self_sub,
        show ((N : ℤ) + i) - ((n : ℤ) + 1) = ((i : ℤ) - n - 1) + 1 * N from by ring,
        Int.add_mul_emod_self]
    have e2 : ((N : ℤ) - 1 - d) % N = ((i : ℤ) - n - 1) % N := by
      rw [hd, emod_self_sub,
        show (N : ℤ) - 1 - ((n : ℤ) - i) = ((i : ℤ) - n - 1) + 1 * N from by ring,
        Int.add_mul_emod_self]
    have e3 : ((N : ℤ) - 1 - d) % N = (N : ℤ) - 1 - d :=
      Int.emod_eq_of_lt (by omega) (by omega)
    calc (((N - (n + 1) % N + i) % N : ℕ) : ℤ)
        = ((N - (n + 1) % N + i : ℕ) : ℤ) % (N : ℤ) := by push_cast; ring
      _ = ((N : ℤ) - ((n : ℤ) + 1) % N + i) % N := by rw [hcast]
      _ = ((i : ℤ) - n - 1) % N := e1
      _ = ((N : ℤ) - 1 - d) % N := e2.symm
      _ = (N : ℤ) - 1 - d := e3
  omega

/-- The map `i ↦ (n - i) mod N` on `[0, N)` is an involution. -/
theorem mod_involution (N n i : ℕ) (hN : 0 < N) (hi : i < N) :
    (((n : ℤ) - (((n : ℤ) - i) % (N : ℤ)).toNat) % (N : ℤ)).toNat = i := by
  have h0 : 0 ≤ ((n : ℤ) - i) % (N : ℤ) := Int.emod_nonneg _ (by omega)
  rw [Int.toNat_of_nonneg h0, emod_self_sub,
    show (n : ℤ) - ((n : ℤ) - i) = (i : ℤ) from by ring,
    Int.emod_eq_of_lt (by omega) (by omega)]
  omega

/-- Reindexing a sum over `[0, N)` along `i ↦ (n - i) mod N`. -/
theorem sum_range_reindex (N n : ℕ) (hN : 0 < N) (F : ℕ → ℝ) :
    ∑ i ∈ Finset.range N, F ((((n : ℤ) - i) % (N : ℤ)).toNat) =
      ∑ k ∈ Finset.range N, F k := by
  have hmem : ∀ a : ℕ, a ∈ Finset.range N →
      (((n : ℤ) - a) % (N : ℤ)).toNat ∈ Finset.range N := by
    intro a _
    rw [Finset.mem_range]
    have h1 : ((n : ℤ) - a) % (N : ℤ) < N := Int.emod_lt_of_pos _ (by omega)
    omega
  refine Finset.sum_nbij' (fun i => (((n : ℤ) - i) % (N : ℤ)).toNat)
    (fun k => (((n : ℤ) - k) % (N : ℤ)).toNat) hmem hmem ?_ ?_ fun a ha => rfl
  · intro a ha
    rw [Finset.mem_range] at ha
    exact mod_involution N n a hN ha
  · intro a ha
    rw [Finset.mem_range] at ha
    exact mod_involution N n a hN ha

/-- The `n`-th collected output of repeated updates is the update applied to
the state reached after the first `n` inputs. -/
theorem runUpdates_getD {σ : Type} (step : σ → ℝ → σ × ℝ) :
    ∀ (u : List ℝ) (s : σ) (n : ℕ), n < u.length →
      (runUpdates step s u).2.getD n 0 =
        (step (applySteps step s (u.take n)) (u.getD n 0)).2 := by
  intro u
  induction u with
  | nil => intro s n h; simp at h
  | cons a rest ih =>
    intro s n h
    cases n with
    | zero => simp [runUpdates, applySteps]
    | succ n =>
      show ((runUpdates step (step s a).1 rest).2).getD n 0 = _
      rw [ih _ n (by simpa using h)]
      rfl

/-- Invariant of the FIR state after feeding a list of samples: the taps stay
the doubled reversed list, the history length is fixed, the write index is
the number of samples modulo `N`, and slot `i` holds the most recent sample
whose time is congruent to `i` modulo `N` (zero if there is none). -/
theorem fir_applySteps_inv (taps : List ℝ) (hne : taps ≠ []) (v : List ℝ) :
    (applySteps FIRFilter.update (NewFIRFilter taps) v).h =
      taps.reverse ++ taps.reverse ∧
    (applySteps FIRFilter.update (NewFIRFilter taps) v).x.length = taps.length ∧
    (applySteps FIRFilter.update (NewFIRFilter taps) v).j =
      v.length % taps.length ∧
    (∀ i < taps.length,
      (applySteps FIRFilter.update (NewFIRFilter taps) v).x.getD i 0 =
        getPad v ((v.length : ℤ) - 1 -
          (((v.length : ℤ) - 1 - i) % (taps.length : ℤ)))) := by
  have hN : 0 < taps.length := List.length_pos.mpr hne
  induction v using List.reverseRecOn with
  | nil =>
    refine ⟨rfl, by simp [applySteps, NewFIRFilter],
      by simp [applySteps, NewFIRFilter], ?_⟩
    intro i hi
    have hnon : 0 ≤ ((List.nil (α := ℝ)).length - 1 - (i : ℤ)) % (taps.length : ℤ) :=
      Int.emod_nonneg _ (by omega)
    rw [getPad_neg _ (by simp only [List.length_nil] at hnon ⊢; omega)]
    simp only [applySteps, List.foldl_nil, NewFIRFilter]
    rw [List.getD_eq_getElem _ _ (by simpa using hi)]
    simp
  | append_singleton v a ih =>
    obtain ⟨ihh, ihlen, ihj, ihx⟩ := ih
    set σ := applySteps FIRFilter.update (NewFIRFilter taps) v with hσ
    have happ : applySteps FIRFilter.update (NewFIRFilter taps) (v ++ [a]) =
        (σ.update a).1 := by
      rw [hσ]
      simp [applySteps, List.foldl_append]
    have hx' : (σ.update a).1.x = σ.x.set σ.j a := rfl
    have hj' : (σ.update a).1.j =
        if σ.j + 1 ≥ σ.x.length then 0 else σ.j + 1 := rfl
    have hh' : (σ.update a).1.h = σ.h := rfl
    refine ⟨by rw [happ, hh', ihh], by rw [happ, hx', List.length_set, ihlen], ?_, ?_⟩
    · rw [happ, hj', ihlen, ihj]
      simp only [List.length_append, List.length_singleton]
      exact j_step v.length taps.length hN
    · intro i hi
      rw [happ, hx']
      have harg : ((v ++ [a]).length : ℤ) - 1 -
          ((((v ++ [a]).length : ℤ) - 1 - i) % (taps.length : ℤ)) =
          (v.length : ℤ) - (((v.length : ℤ) - i) % (taps.length : ℤ)) := by
        simp only [List.length_append, List.length_singleton, Nat.cast_add,
          Nat.cast_one, add_sub_cancel_right]
      rw [harg]
      have hmodcast : ((v.length % taps.length : ℕ) : ℤ) =
          (v.length : ℤ) % (taps.length : ℤ) := by push_cast; ring
      rw [List.getD_eq_getElem _ _ (by rw [List.length_set, ihlen]; exact hi),
        List.getElem_set]
      by_cases hcase : σ.j = i
      · rw [if_pos hcase]
        have hzero : ((v.length : ℤ) - i) % (taps.length : ℤ) = 0 := by
          have : (i : ℤ) = (v.length : ℤ) % (taps.length : ℤ) := by
            rw [← hmodcast, ← ihj, hcase]
          rw [this, emod_self_sub]
          simp
        rw [hzero]
        simpa using (getPad_append_self v a).symm
      · rw [if_neg hcase]
        have hne0 : ((v.length : ℤ) - i) % (taps.length : ℤ) ≠ 0 := by
          intro h0
          have h2 : (v.length : ℤ) % (taps.length : ℤ) = (i : ℤ) % (taps.length : ℤ) := by
            rw [show (v.length : ℤ) = ((v.length : ℤ) - i) + i from by ring,
              Int.add_emod, h0]
            simp [Int.emod_emod_of_dvd _ dvd_rfl]
          have h4 : (i : ℤ) % (taps.length : ℤ) = i :=
            Int.emod_eq_of_lt (by omega) (by omega)
          rw [h4] at h2
          have h3 : σ.j = v.length % taps.length := ihj
          omega
        have hpred : ((v.length : ℤ) - i) % (taps.length : ℤ) =
            ((v.length : ℤ) - 1 - i) % (taps.length : ℤ) + 1 := by
          rw [emod_nonzero_pred _ _ (by omega) hne0]
          congr 2
          ring
        have hnon : 0 ≤ ((v.length : ℤ) - 1 - i) % (taps.length : ℤ) :=
          Int.emod_nonneg _ (by omega)
        rw [hpred,
          show (v.length : ℤ) - (((v.length : ℤ) - 1 - i) % (taps.length : ℤ) + 1) =
            (v.length : ℤ) - 1 - (((v.length : ℤ) - 1 - i) % (taps.length : ℤ))
            from by ring,
          getPad_append_lt v a (by omega), ← ihx i hi]
        exact (List.getD_eq_getElem _ _ (by rw [ihlen]; exact hi)).symm

/-- One FIR update after the first `n` samples produces exactly the direct
convolution value at step `n`. -/
theorem fir_conv_step (taps : List ℝ) (hne : taps ≠ []) (u : List ℝ) (n : ℕ)
    (hn : n < u.length) :
    (FIRFilter.update (applySteps FIRFilter.update (NewFIRFilter taps) (u.take n))
      (u.getD n 0)).2 = directConv taps u n := by
  have hN : 0 < taps.length := List.length_pos.mpr hne
  set σ := applySteps FIRFilter.update (NewFIRFilter taps) (u.take n) with hσ
  obtain ⟨ihh, ilen, ij, _⟩ := fir_applySteps_inv taps hne (u.take n)
  have hlen_take : (u.take n).length = n := by rw [List.length_take]; omega
  obtain ⟨_, _, _, ix'⟩ := fir_applySteps_inv taps hne (u.take (n + 1))
  have hlen_take' : (u.take (n + 1)).length = n + 1 := by rw [List.length_take]; omega
  have htake_succ : u.take (n + 1) = u.take n ++ [u.getD n 0] := by
    rw [List.take_succ, List.getElem?_eq_getElem hn, List.getD_eq_getElem _ _ hn]
    rfl
  have happ : applySteps FIRFilter.update (NewFIRFilter taps) (u.take (n + 1)) =
      (σ.update (u.getD n 0)).1 := by
    rw [htake_succ, hσ]
    simp [applySteps, List.foldl_append]
  have hj2 : σ.j = n % taps.length := by rw [ij, hlen_take]
  have hxn : ∀ i < taps.length, (σ.x.set σ.j (u.getD n 0)).getD i 0 =
      getPad u ((n : ℤ) - (((((n : ℤ) - i) % (taps.length : ℤ)).toNat : ℕ) : ℤ)) := by
    intro i hi
    have h1 := ix' i hi
    rw [happ, hlen_take'] at h1
    rw [show (σ.update (u.getD n 0)).1.x = σ.x.set σ.j (u.getD n 0) from rfl] at h1
    simp only [Nat.cast_add, Nat.cast_one, add_sub_cancel_right] at h1
    have hdnon : 0 ≤ ((n : ℤ) - i) % (taps.length : ℤ) :=
      Int.emod_nonneg _ (by omega)
    rw [getPad_take u n (by omega)] at h1
    rw [h1, Int.toNat_of_nonneg hdnon]
  have hout : (FIRFilter.update σ (u.getD n 0)).2 =
      ∑ i ∈ Finset.range σ.x.length, (σ.x.set σ.j (u.getD n 0)).getD i 0 *
        σ.h.getD ((σ.x.length - (if σ.j + 1 ≥ σ.x.length then 0 else σ.j + 1)) + i) 0 :=
    rfl
  have hif : (if σ.j + 1 ≥ σ.x.length then 0 else σ.j + 1) = (n + 1) % taps.length := by
    rw [ilen, hj2]
    exact j_step n taps.length hN
  rw [hout, hif, ilen]
  have hmodlt : (n + 1) % taps.length < taps.length := Nat.mod_lt _ hN
  calc ∑ i ∈ Finset.range taps.length, (σ.x.set σ.j (u.getD n 0)).getD i 0 *
        σ.h.getD ((taps.length - (n + 1) % taps.length) + i) 0
      = ∑ i ∈ Finset.range taps.length,
          getPad u ((n : ℤ) - (((((n : ℤ) - i) % (taps.length : ℤ)).toNat : ℕ) : ℤ)) *
            taps.getD ((((n : ℤ) - i) % (taps.length : ℤ)).toNat) 0 := by
        refine Finset.sum_congr rfl fun i hi => ?_
        rw [Finset.mem_range] at hi
        rw [hxn i hi, ihh, h_doubled_getD taps _ (by omega),
          tap_index_eq taps.length n i hN hi]
    _ = ∑ k ∈ Finset.range taps.length,
          getPad u ((n : ℤ) - k) * taps.getD k 0 :=
        sum_range_reindex taps.length n hN
          fun k => getPad u ((n : ℤ) - k) * taps.getD k 0
    _ = directConv taps u n := by
        refine Finset.sum_congr rfl fun k hk => ?_
        rw [getPad_int_sub]
        ring

/-- C2: for a FIR filter built from a nonempty tap list, the `n`-th output
of repeated Update calls starting from the all-zero history equals direct
backward convolution of the taps with the zero-padded input, for every wrap
position of the circular index. -/
theorem fir_update_eq_direct_conv (taps u : List ℝ) (n : ℕ)
    (hne : taps ≠ []) (hn : n < u.length) :
    (runUpdates FIRFilter.update (NewFIRFilter taps) u).2.getD n 0 =
      directConv taps u n := by
  rw [runUpdates_getD _ u _ n hn]
  exact fir_conv_step taps hne u n hn

/-- C2 witness: the equivalence evaluated for taps `[1, 2]`, inputs `[5, 7]`
and output index `1`. -/
theorem fir_update_eq_direct_conv_witness :
    ([(1 : ℝ), 2] ≠ []) ∧ 1 < ([(5 : ℝ), 7] : List ℝ).length ∧
    (runUpdates FIRFilter.update (NewFIRFilter [(1 : ℝ), 2]) [(5 : ℝ), 7]).2.getD 1 0 =
      directConv [(1 : ℝ), 2] [(5 : ℝ), 7] 1 :=
  ⟨by simp, by simp,
    fir_update_eq_direct_conv [(1 : ℝ), 2] [(5 : ℝ), 7] 1 (by simp) (by simp)⟩

end Pctl
